import Mathlib

/-!
# Verification of the `cr` markdown command runner

Shallow embedding of the repository's core: the heading-tree builder
(`parseDoc`), the language dispatch table (`languageConfigs`), the node
executor (`executeNode`), heading lookup (`findNode`), the document locator
(`findDoc`) and the key/value table recogniser (`tryCreateKeyValueMap`).

The repository ships several prototype variants of the same tool.  The
executable Go variant (the second unit of `src/main.go`, functions
`parseDoc`, `executeNode`, `findNode`, `findDoc`) is the one embedded here;
`tryCreateKeyValueMap` comes from the first Go unit of `src/main.go`, and
the top-level error/exit-code plumbing from `src/main.c`.

Conventions:
* Go `map[string]string` values are modelled as association lists with
  unique keys (`Env`); `mapInsert` is Go map assignment, `mapFind` is map
  indexing.
* Subprocess spawning is modelled by an oracle `SpawnReq → SpawnResult`;
  `executeNode` additionally returns the list of spawn requests it issued,
  in order, so that sequencing claims can be stated.
* The markdown AST walk of `parseDoc` (gomarkdown's `ast.WalkFunc`) is
  modelled as a fold over the document-order sequence of the block events
  the function reacts to (`Block`): headings, paragraphs (already flattened
  to their text, as the inner text/hardbreak walk produces), fenced code
  blocks, and tables (as their row lists of cell texts, header row first,
  exactly as the inner `TableRow` walk visits them).
-/

/-! ## Small string and map utilities -/

/-- Association-list environment, modelling Go `map[string]string`. -/
abbrev Env := List (String × String)

/-- Go map indexing `m[k]` (comma-ok form): the first binding of `k`. -/
def mapFind (m : Env) (k : String) : Option String :=
  (m.find? (fun p => p.1 == k)).map (fun p => p.2)

/-- Go map assignment `m[k] = v`: overwrite the binding if present,
otherwise append a new one. -/
def mapInsert (m : Env) (k v : String) : Env :=
  if m.any (fun p => p.1 == k) then
    m.map (fun p => if p.1 == k then (p.1, v) else p)
  else
    m ++ [(k, v)]

/-- Go `if _, exists := m[k]; !exists { m[k] = v }`: insert only if the key
is absent (used by `executeNode`'s ancestor walk). -/
def mapInsertIfAbsent (m : Env) (k v : String) : Env :=
  if m.any (fun p => p.1 == k) then m else m ++ [(k, v)]

/-- Lookup in an environment slice handed to `exec.Cmd.Env`, which keeps the
last binding of a duplicated key (Go `os/exec` dedups duplicate keys by
keeping the last value in the slice). -/
def lookupLast (e : Env) (k : String) : Option String :=
  (e.reverse.find? (fun p => p.1 == k)).map (fun p => p.2)

/-- Go `strings.ToLower` (letter-wise lower-casing). -/
def toLowerStr (s : String) : String :=
  String.mk (s.data.map Char.toLower)

/-- Go `strings.TrimSpace`: drop leading and trailing whitespace. -/
def trimSpace (s : String) : String :=
  String.mk
    (((s.data.dropWhile Char.isWhitespace).reverse.dropWhile
        Char.isWhitespace).reverse)

/-- Model of Go `strings.EqualFold` on the strings this tool compares
(heading texts): case-insensitive equality via case normalisation. -/
def eqFold (a b : String) : Bool :=
  toLowerStr a == toLowerStr b

/-- `replaceFirstL l pat new`: replace the first occurrence of `pat` in `l`
by `new` (character-list core of Go `strings.Replace(s, pat, new, 1)`). -/
def replaceFirstL (pat new : List Char) : List Char → List Char
  | [] => if pat = [] then new else []
  | c :: rest =>
    if pat.isPrefixOf (c :: rest) then
      new ++ (c :: rest).drop pat.length
    else
      c :: replaceFirstL pat new rest

/-- Go `strings.Replace(s, pat, new, 1)`: replace the first occurrence. -/
def replaceFirst (s pat new : String) : String :=
  String.mk (replaceFirstL pat.data new.data s.data)

/-- Go `path.Join(dir, name)` as used by `findDoc` (no cleaning needed for
the locator's inputs). -/
def joinP (dir name : String) : String :=
  dir ++ "/" ++ name

/-! ## Language dispatch table (`src/main.go`, second unit, lines 668-694) -/

/-- One interpreter invocation template: executable name plus argument list
containing the `$CODE` placeholder. -/
structure LanguageConfig where
  cmdName : String
  prefixArgs : List String
deriving DecidableEq, Repr

/-- The static dispatch table `languageConfigs`, verbatim from the source. -/
def languageConfigs : List (String × LanguageConfig) :=
  [ ("awk",        { cmdName := "awk",            prefixArgs := ["$CODE"] }),
    ("sh",         { cmdName := "sh",             prefixArgs := ["-euc", "$CODE", "--"] }),
    ("bash",       { cmdName := "bash",           prefixArgs := ["-euc", "$CODE", "--"] }),
    ("zsh",        { cmdName := "zsh",            prefixArgs := ["-euc", "$CODE", "--"] }),
    ("fish",       { cmdName := "fish",           prefixArgs := ["-euc", "$CODE", "--"] }),
    ("dash",       { cmdName := "dash",           prefixArgs := ["-euc", "$CODE", "--"] }),
    ("ksh",        { cmdName := "ksh",            prefixArgs := ["-euc", "$CODE", "--"] }),
    ("ash",        { cmdName := "ash",            prefixArgs := ["-euc", "$CODE", "--"] }),
    ("shell",      { cmdName := "sh",             prefixArgs := ["-euc", "$CODE", "--"] }),
    ("js",         { cmdName := "node",           prefixArgs := ["-e", "$CODE"] }),
    ("javascript", { cmdName := "node",           prefixArgs := ["-e", "$CODE"] }),
    ("py",         { cmdName := "python",         prefixArgs := ["-c", "$CODE"] }),
    ("python",     { cmdName := "python",         prefixArgs := ["-c", "$CODE"] }),
    ("rb",         { cmdName := "ruby",           prefixArgs := ["-e", "$CODE"] }),
    ("ruby",       { cmdName := "ruby",           prefixArgs := ["-e", "$CODE"] }),
    ("php",        { cmdName := "php",            prefixArgs := ["-r", "$CODE"] }),
    ("cmd",        { cmdName := "cmd.exe",        prefixArgs := ["/c", "$CODE"] }),
    ("batch",      { cmdName := "cmd.exe",        prefixArgs := ["/c", "$CODE"] }),
    ("powershell", { cmdName := "powershell.exe", prefixArgs := ["-c", "$CODE"] }) ]

/-- Go map indexing `languageConfigs[info]`: exact lookup on the raw info
string (this is the lookup used both in `parseDoc` line 799 and in
`executeNode` line 843 of `src/main.go`). -/
def lookupLanguage (info : String) : Option LanguageConfig :=
  (languageConfigs.find? (fun p => p.1 == info)).map (fun p => p.2)

/-! ## Data model of the command tree -/

/-- A fenced code block as kept on a command node: the fence info string
(`ast.CodeBlock.Info`) and the raw body (`ast.CodeBlock.Literal`). -/
structure CodeBlock where
  info : String
  literal : String
deriving DecidableEq, Repr

/-- `MD_NODE` of `src/main.go` (second unit): one node per markdown
heading.  The Go `Parent` back-pointer is modelled relationally (functions
that walk it take the ancestor chain as an argument). -/
inductive MDNode where
  | mk (heading : String) (level : Nat) (description : String)
       (env : Env) (codeBlocks : List CodeBlock) (children : List MDNode)

def MDNode.heading : MDNode → String
  | .mk h _ _ _ _ _ => h

def MDNode.level : MDNode → Nat
  | .mk _ lv _ _ _ _ => lv

def MDNode.description : MDNode → String
  | .mk _ _ d _ _ _ => d

def MDNode.env : MDNode → Env
  | .mk _ _ _ e _ _ => e

def MDNode.codeBlocks : MDNode → List CodeBlock
  | .mk _ _ _ _ cbs _ => cbs

def MDNode.children : MDNode → List MDNode
  | .mk _ _ _ _ _ ch => ch

/-! ## The heading-tree builder (`parseDoc`, `src/main.go` lines 745-836) -/

/-- The block events `parseDoc`'s AST walk reacts to, in document order.
A `table` carries its rows of cell texts with the header row first, which
is how the inner `ast.TableRow` walk visits them. -/
inductive Block where
  | heading (level : Nat) (text : String)
  | para (text : String)
  | code (info : String) (literal : String)
  | table (rows : List (List String))

/-- A node still open on the builder's stack.  In the Go code the stack
holds pointers into the partially built tree and content is added through
them; here the pending node's fields live on the frame and the node is
materialised when the frame is popped (same resulting tree). -/
structure Frame where
  heading : String
  level : Nat
  description : String
  env : Env
  codeBlocks : List CodeBlock
  children : List MDNode

/-- Materialise a finished frame as a tree node. -/
def Frame.toNode (f : Frame) : MDNode :=
  .mk f.heading f.level f.description f.env f.codeBlocks f.children

/-- Pop stack frames while the top's level is `≥ lv` (Go
`for len(stack) > 0 && stack[len(stack)-1].Heading.Level >= v.Level`),
attaching each popped node to the next frame's children, or to the list of
finished roots (`commands`) when the stack empties.  The stack's head is
its top. -/
def popGE (lv : Nat) : List Frame → List MDNode → List Frame × List MDNode
  | [], done => ([], done)
  | [f], done =>
    if lv ≤ f.level then popGE lv [] (done ++ [f.toNode]) else ([f], done)
  | f :: g :: rest, done =>
    if lv ≤ f.level then
      popGE lv ({ g with children := g.children ++ [f.toNode] } :: rest) done
    else (f :: g :: rest, done)
termination_by s _ => s.length

/-- Apply a content update to the stack top, as the `Paragraph`,
`CodeBlock` and `Table` cases do under `if len(stack) > 0`; content with no
open heading is discarded. -/
def onTop (st : List Frame × List MDNode) (g : Frame → Frame) :
    List Frame × List MDNode :=
  match st with
  | ([], done) => ([], done)
  | (f :: rest, done) => (g f :: rest, done)

/-- The `*ast.Table` case of `parseDoc` (lines 804-829): the walk visits
every `TableRow` (the header row included), and for each row with at least
two cells stores `env[row[0]] = row[1]`.  There is no key/value header
check, no column swapping, no whitespace trimming and no empty-key skip. -/
def envFromTable (rows : List (List String)) (e : Env) : Env :=
  rows.foldl
    (fun acc row =>
      match row with
      | k :: v :: _ => mapInsert acc k v
      | _ => acc)
    e

/-- One step of `parseDoc`'s walk (`src/main.go` lines 754-830). -/
def stepBlock (all : Bool) (st : List Frame × List MDNode) :
    Block → List Frame × List MDNode
  | .heading lv tx =>
    let (s, d) := popGE lv st.1 st.2
    ({ heading := tx, level := lv, description := "", env := [],
       codeBlocks := [], children := [] } :: s, d)
  | .para tx =>
    onTop st (fun f =>
      if f.description == "" && f.codeBlocks.isEmpty then
        { f with description := tx }
      else f)
  | .code info lit =>
    onTop st (fun f =>
      if all || (lookupLanguage info).isSome then
        { f with codeBlocks := f.codeBlocks ++ [⟨info, lit⟩] }
      else f)
  | .table rows =>
    onTop st (fun f => { f with env := envFromTable rows f.env })

/-- `parseDoc` (`src/main.go` lines 745-836): fold the walk over the
document's block events and return the finished roots in document order.
In Go every node is attached to its parent (or to `commands`) at push time
and filled in through the stack pointer, so nothing remains to do at the
end of the walk; with deferred materialisation the still-open frames are
flushed by a final full pop (`popGE 0` pops every frame). -/
def parseDoc (all : Bool) (blocks : List Block) : List MDNode :=
  let st := blocks.foldl (stepBlock all) ([], [])
  (popGE 0 st.1 st.2).2

/-! ## Key/value table recogniser
(`tryCreateKeyValueMap`, first unit of `src/main.go`, lines 280-320) -/

/-- `tryCreateKeyValueMap`: recognise a two-column table whose header cells
case-insensitively read `key`/`value` in either order; build the map row by
row, trimming cells, honouring the column order, skipping empty keys, later
duplicates overwriting. -/
def tryCreateKeyValueMap (header : List String) (rows : List (List String)) :
    Option Env :=
  if header.length ≠ 2 then none
  else
    let header1 := toLowerStr (trimSpace (header.getD 0 ""))
    let header2 := toLowerStr (trimSpace (header.getD 1 ""))
    if ¬ ((header1 == "key" && header2 == "value") ||
          (header1 == "value" && header2 == "key")) then none
    else
      some (rows.foldl
        (fun m row =>
          match row with
          | c1 :: c2 :: _ =>
            let kv := if header1 == "key" then (trimSpace c1, trimSpace c2)
                      else (trimSpace c2, trimSpace c1)
            if kv.1 ≠ "" then mapInsert m kv.1 kv.2 else m
          | _ => m)
        [])

/-! ## Heading lookup (`findNode`, `src/main.go` lines 890-904) -/

/-- `findNode`: depth-first search comparing each node's own heading text
(case-insensitively) before descending into its children, in document
order; first match wins. -/
def findNode (heading : String) : List MDNode → Option MDNode
  | [] => none
  | .mk h lv d e cbs ch :: rest =>
    if eqFold (MDNode.mk h lv d e cbs ch).heading heading then
      some (.mk h lv d e cbs ch)
    else
      match findNode heading ch with
      | some m => some m
      | none => findNode heading rest

/-- Preorder flattening of a forest: each node before its children, in
document order (used to state which node `findNode` returns). -/
def preorder : List MDNode → List MDNode
  | [] => []
  | .mk h lv d e cbs ch :: rest =>
    MDNode.mk h lv d e cbs ch :: (preorder ch ++ preorder rest)

/-- The heading-dispatch step of `src/main.c` `main` (lines 193-217):
a found node is executed (or printed), a missing heading is reported and
the process exits with code 1. -/
def cMainFindNode (nodes : List MDNode) (heading : String) :
    Except Nat MDNode :=
  match findNode heading nodes with
  | some n => .ok n
  | none => .error 1

/-! ## Document locator (`findDoc`, `src/main.go` lines 702-734) -/

/-- The candidate file names, in priority order (`patterns` in `findDoc`). -/
def docNames (program : String) : List String :=
  [program ++ ".md", "." ++ program ++ ".md", "README.md"]

/-- `findDoc`: walk the ancestor directory chain (working directory first,
filesystem root last — the chain produced by the `path.Dir` loop), and at
each level test the three candidate names in order, returning the first
path whose `os.Stat` reports a regular file.  `isRegFile p` models
`os.Stat(p)` succeeding with `Mode().IsRegular()` (since `os.Stat` follows
symbolic links, a symlink to a regular file also passes; the
`os.ModeSymlink` disjunct in the source is dead under `os.Stat`). -/
def findDoc (program : String) (chain : List String)
    (isRegFile : String → Bool) : Option String :=
  match chain with
  | [] => none
  | dir :: rest =>
    match (docNames program).find? (fun n => isRegFile (joinP dir n)) with
    | some n => some (joinP dir n)
    | none => findDoc program rest isRegFile

/-- The document-resolution step of `src/main.c` `main` (lines 172-181):
no file found anywhere on the chain means the process reports the error and
exits with code 1. -/
def cMainFindDoc (program : String) (chain : List String)
    (isRegFile : String → Bool) : Except Nat String :=
  match findDoc program chain isRegFile with
  | some p => .ok p
  | none => .error 1

/-! ## The node executor (`executeNode`, `src/main.go` lines 838-888) -/

/-- One subprocess spawn: executable, argument list, environment slice. -/
structure SpawnReq where
  cmdName : String
  args : List String
  env : Env
deriving DecidableEq, Repr

/-- Result of `exec.Cmd.Run`: the process ran and exited with a code, or
spawning itself failed. -/
inductive SpawnResult where
  | exited (code : Nat)
  | spawnError (msg : String)
deriving DecidableEq, Repr

/-- The executor's error taxonomy: `UnsupportedLanguage` (lookup miss at
dispatch time) and `ExecutionFailed` (non-zero exit or spawn failure). -/
inductive ExecErr where
  | unsupportedLanguage (info : String)
  | executionFailed (res : SpawnResult)
deriving DecidableEq, Repr

/-- Lines 848-854: substitute the block body for `$CODE` in each template
argument (`strings.Replace(arg, "$CODE", literal, 1)`) and append the
caller-supplied trailing arguments. -/
def buildArgs (cfg : LanguageConfig) (literal : String)
    (args : List String) : List String :=
  cfg.prefixArgs.map (fun a => replaceFirst a "$CODE" literal) ++ args

/-- Lines 856-867: merge environment variables — walk the parent chain from
the immediate parent upward inserting only absent keys (so nearer ancestors
win), then write the node's own entries over everything.  `ancestors` is
the `Parent` chain's env maps, immediate parent first, root last. -/
def mergedEnvMap (ancestors : List Env) (own : Env) : Env :=
  let base := ancestors.foldl
    (fun acc e => e.foldl (fun a kv => mapInsertIfAbsent a kv.1 kv.2) acc) []
  own.foldl (fun a kv => mapInsert a kv.1 kv.2) base

/-- Lines 869-874: the env slice handed to the subprocess,
`append(os.Environ(), cmdEnv...)` (duplicate keys resolved by Go's exec in
favour of the later entries, see `lookupLast`). -/
def cmdEnvOf (procEnv : Env) (ancestors : List Env) (own : Env) : Env :=
  procEnv ++ mergedEnvMap ancestors own

/-- The per-block loop of `executeNode`: resolve the language, build the
arguments, spawn, and stop at the first failing block.  Returns the spawn
requests issued (in order) together with the outcome. -/
def executeBlocks (oracle : SpawnReq → SpawnResult) (env : Env)
    (args : List String) : List CodeBlock → List SpawnReq × Except ExecErr Unit
  | [] => ([], .ok ())
  | cb :: rest =>
    match lookupLanguage cb.info with
    | none => ([], .error (.unsupportedLanguage cb.info))
    | some cfg =>
      let req : SpawnReq := ⟨cfg.cmdName, buildArgs cfg cb.literal args, env⟩
      match oracle req with
      | .exited 0 =>
        let (tr, res) := executeBlocks oracle env args rest
        (req :: tr, res)
      | r => ([req], .error (.executionFailed r))

/-- `executeNode` (`src/main.go` lines 838-888): execute each of the node's
code blocks in document order under the merged environment.  `ancestors`
stands for the node's `Parent` chain (immediate parent first), `procEnv`
for `os.Environ()`. -/
def executeNode (procEnv : Env) (ancestors : List Env) (node : MDNode)
    (args : List String) (oracle : SpawnReq → SpawnResult) :
    List SpawnReq × Except ExecErr Unit :=
  executeBlocks oracle (cmdEnvOf procEnv ancestors node.env) args
    node.codeBlocks

/-- Modelled from the spec: `execute_node` of `executor.c`, which
`src/main.c` includes but which is not present under `src/` (only its
caller at `src/main.c` lines 211-213, `return execute_node(...)`, is).
Per spec §4.4/§7 it runs the node's blocks in order and its return value —
propagated verbatim as the tool's exit code by `main` — is the failing
subprocess's own exit code when available, 1 for spawn-level errors and
unsupported languages, and 0 when every block succeeds. -/
def cExecuteNodeExit (oracle : SpawnReq → SpawnResult) (env : Env)
    (args : List String) : List CodeBlock → Nat
  | [] => 0
  | cb :: rest =>
    match lookupLanguage cb.info with
    | none => 1
    | some cfg =>
      match oracle ⟨cfg.cmdName, buildArgs cfg cb.literal args, env⟩ with
      | .exited 0 => cExecuteNodeExit oracle env args rest
      | .exited c => c
      | .spawnError _ => 1

/-! ## Skeleton of the tree builder (for the nesting-structure claim)

`STree`/`SFrame` erase the content fields (description, env, code blocks)
of `MDNode`/`Frame`, keeping exactly what heading placement depends on. -/

/-- Tree skeleton: heading level, heading text, children. -/
inductive STree where
  | node (level : Nat) (text : String) (children : List STree)

/-- Frame skeleton. -/
structure SFrame where
  level : Nat
  text : String
  children : List STree

def SFrame.toTree (f : SFrame) : STree :=
  .node f.level f.text f.children

/-- Skeleton counterpart of `popGE`. -/
def sPopGE (lv : Nat) : List SFrame → List STree → List SFrame × List STree
  | [], done => ([], done)
  | [f], done =>
    if lv ≤ f.level then sPopGE lv [] (done ++ [f.toTree]) else ([f], done)
  | f :: g :: rest, done =>
    if lv ≤ f.level then
      sPopGE lv ({ g with children := g.children ++ [f.toTree] } :: rest) done
    else (f :: g :: rest, done)
termination_by s _ => s.length

/-- Skeleton counterpart of the heading case of `stepBlock`. -/
def sStep (st : List SFrame × List STree) (h : Nat × String) :
    List SFrame × List STree :=
  let (s, d) := sPopGE h.1 st.1 st.2
  (⟨h.1, h.2, []⟩ :: s, d)

/-- Skeleton counterpart of `parseDoc`, consuming only the headings. -/
def sBuild (hs : List (Nat × String)) : List STree :=
  let st := hs.foldl sStep ([], [])
  (sPopGE 0 st.1 st.2).2

mutual

/-- Erase a node to its skeleton. -/
def skelN : MDNode → STree
  | .mk h lv _ _ _ ch => .node lv h (skelL ch)

/-- Erase a forest to its skeleton. -/
def skelL : List MDNode → List STree
  | [] => []
  | n :: ns => skelN n :: skelL ns

end

/-- Erase a frame to its skeleton. -/
def skelF (f : Frame) : SFrame :=
  ⟨f.level, f.heading, skelL f.children⟩

/-- The heading events of a block sequence, in document order. -/
def headingsOf (blocks : List Block) : List (Nat × String) :=
  blocks.filterMap (fun b =>
    match b with
    | .heading lv tx => some (lv, tx)
    | _ => none)

/-- Reference recursive builder: the node of the first heading takes as
children exactly the following headings of strictly greater level, up to
the first heading of level ≤ its own; the rest are its later siblings. -/
def buildR : List (Nat × String) → List STree
  | [] => []
  | h :: rest =>
    .node h.1 h.2 (buildR (rest.takeWhile (fun x => h.1 < x.1)))
      :: buildR (rest.dropWhile (fun x => h.1 < x.1))
termination_by hs => hs.length
decreasing_by
  · exact Nat.lt_succ_of_le (List.takeWhile_sublist _).length_le
  · exact Nat.lt_succ_of_le (List.dropWhile_sublist _).length_le

/-- Index (position counted from the right end) of the last element of
`pre` that is strictly smaller than `x`; i.e. the nearest element before a
fixed point that is smaller.  Indices are absolute positions in `pre`. -/
def lastSmaller (x : Nat) : List Nat → Option Nat
  | [] => none
  | a :: t =>
    match lastSmaller x t with
    | some j => some (j + 1)
    | none => if a < x then some 0 else none

mutual

/-- Flatten a skeleton tree in preorder, assigning consecutive indices
(from counter `c`) and recording each node's parent index (`p` for the
roots of the list).  Returns the flattened entries `(level, text, parent)`
and the next free index. -/
def flatT (p : Option Nat) (c : Nat) :
    STree → List (Nat × String × Option Nat) × Nat
  | .node lv tx ch =>
    let (f, c1) := flatL (some c) (c + 1) ch
    ((lv, tx, p) :: f, c1)

/-- Flatten a skeleton forest in preorder (see `flatT`). -/
def flatL (p : Option Nat) (c : Nat) :
    List STree → List (Nat × String × Option Nat) × Nat
  | [] => ([], c)
  | t :: ts =>
    let (f1, c1) := flatT p c t
    let (f2, c2) := flatL p c1 ts
    (f1 ++ f2, c2)

end

/-- The nesting specified by the claim, stated on the heading sequence
directly: the `i`-th heading's parent is the nearest preceding heading of
strictly smaller level (`lastSmaller` over the levels before it), and a
heading with no such predecessor is a root (`none`).  `pre` accumulates the
levels already passed, `c0` is the absolute index of `pre`'s first entry,
`p` the parent assigned when the accumulated prefix has no smaller level
(at top level: `none`, i.e. a root). -/
def specNearestParent (c0 : Nat) (p : Option Nat) :
    List Nat → List (Nat × String) → List (Nat × String × Option Nat)
  | _, [] => []
  | pre, h :: t =>
    (h.1, h.2,
      match lastSmaller h.1 pre with
      | some j => some (c0 + j)
      | none => p) :: specNearestParent c0 p (pre ++ [h.1]) t

/-! ## Language-retention predicate (for the unknown-language claim) -/


/-- Every code block's language resolves in the dispatch table. -/
def blocksKnown (cbs : List CodeBlock) : Bool :=
  cbs.all (fun cb => (lookupLanguage cb.info).isSome)

mutual

/-- All code blocks of a node and its descendants have known languages. -/
def nodeLangsOK : MDNode → Bool
  | .mk _ _ _ _ cbs ch => blocksKnown cbs && forestLangsOK ch

/-- `nodeLangsOK` over a forest. -/
def forestLangsOK : List MDNode → Bool
  | [] => true
  | n :: ns => nodeLangsOK n && forestLangsOK ns

end

/-- `nodeLangsOK` for a still-open frame. -/
def frameLangsOK (f : Frame) : Bool :=
  blocksKnown f.codeBlocks && forestLangsOK f.children

/-- Attach a finished tree to the head frame's children, or to the finished
roots if the stack is empty (the two destinations of a popped node). -/
def sAttach : List SFrame → List STree → STree → List SFrame × List STree
  | [], done, t => ([], done ++ [t])
  | g :: gs, done, t => ({ g with children := g.children ++ [t] } :: gs, done)

/-- Final full pop of the builder state: every frame has level `≥ 0`. -/
def sFlush (st : List SFrame × List STree) : List STree :=
  (sPopGE 0 st.1 st.2).2

/-! ## Association-map and environment-merge lemmas -/

theorem mapFind_mapInsert (m : Env) (k v k' : String) :
    mapFind (mapInsert m k v) k' = if k' = k then some v else mapFind m k' := by
  unfold mapFind mapInsert
  split
  · next hany =>
    rw [List.find?_map]
    have hcomp : ((fun p => p.1 == k') ∘ (fun p : String × String => if p.1 == k then (p.1, v) else p))
        = fun p : String × String => p.1 == k' := by
      funext p
      by_cases hpk : p.1 = k <;> simp [hpk]
    rw [hcomp]
    by_cases hkk : k' = k
    · subst hkk
      rcases List.any_eq_true.mp hany with ⟨p, hp, hpk⟩
      have hsome : (m.find? (fun p => p.1 == k')).isSome := by
        rw [List.find?_isSome]
        exact ⟨p, hp, hpk⟩
      rcases Option.isSome_iff_exists.mp hsome with ⟨p0, hp0⟩
      have hp0k := List.find?_some hp0
      simp only [beq_iff_eq] at hp0k
      simp [hp0, hp0k]
    · simp only [if_neg hkk]
      cases hf : m.find? (fun p => p.1 == k') with
      | none => simp
      | some p0 =>
        have hp0k := List.find?_some hf
        simp only [beq_iff_eq] at hp0k
        simp [hp0k, hkk]
  · next hany =>
    rw [List.find?_append]
    by_cases hkk : k' = k
    · subst hkk
      have hnone : m.find? (fun p => p.1 == k') = none := by
        rw [List.find?_eq_none]
        intro p hp hc
        exact hany (List.any_eq_true.mpr ⟨p, hp, hc⟩)
      simp [hnone, List.find?]
    · have hkk2 : (k == k') = false := by
        simp only [beq_eq_false_iff_ne, ne_eq]
        exact fun hc => hkk hc.symm
      cases hf : m.find? (fun p => p.1 == k') with
      | none => simp [hf, List.find?, hkk2, hkk]
      | some p0 => simp [hf, hkk]

theorem mapFind_mapInsertIfAbsent (m : Env) (k v k' : String) :
    mapFind (mapInsertIfAbsent m k v) k' =
      if k' = k then (mapFind m k).or (some v) else mapFind m k' := by
  unfold mapFind mapInsertIfAbsent
  split
  · next hany =>
    by_cases hkk : k' = k
    · subst hkk
      rcases List.any_eq_true.mp hany with ⟨p, hp, hpk⟩
      have hsome : (m.find? (fun p => p.1 == k')).isSome := by
        rw [List.find?_isSome]
        exact ⟨p, hp, hpk⟩
      rcases Option.isSome_iff_exists.mp hsome with ⟨p0, hp0⟩
      simp [hp0]
    · simp [hkk]
  · next hany =>
    rw [List.find?_append]
    by_cases hkk : k' = k
    · subst hkk
      have hnone : m.find? (fun p => p.1 == k') = none := by
        rw [List.find?_eq_none]
        intro p hp hc
        exact hany (List.any_eq_true.mpr ⟨p, hp, hc⟩)
      simp [hnone, List.find?]
    · have hkk2 : (k == k') = false := by
        simp only [beq_eq_false_iff_ne, ne_eq]
        exact fun hc => hkk hc.symm
      cases hf : m.find? (fun p => p.1 == k') with
      | none => simp [hf, List.find?, hkk2, hkk]
      | some p0 => simp [hf, hkk]

theorem mapFind_cons_self (kv : String × String) (rest : Env) (k : String)
    (h : kv.1 = k) : mapFind (kv :: rest) k = some kv.2 := by
  simp [mapFind, List.find?, h]

theorem mapFind_cons_ne (kv : String × String) (rest : Env) (k : String)
    (h : ¬ kv.1 = k) : mapFind (kv :: rest) k = mapFind rest k := by
  have hb : (kv.1 == k) = false := by
    simp only [beq_eq_false_iff_ne, ne_eq]
    exact h
  simp [mapFind, List.find?, hb]

theorem mapFind_foldl_iIA (e : Env) (acc : Env) (k : String) :
    mapFind (e.foldl (fun a kv => mapInsertIfAbsent a kv.1 kv.2) acc) k =
      (mapFind acc k).or (mapFind e k) := by
  induction e generalizing acc with
  | nil => simp [mapFind, Option.or_none]
  | cons kv rest ih =>
    rw [List.foldl_cons, ih]
    rw [mapFind_mapInsertIfAbsent]
    by_cases hkk : k = kv.1
    · rw [if_pos hkk, mapFind_cons_self kv rest k hkk.symm, Option.or_assoc,
        Option.or_some, hkk]
    · rw [if_neg hkk, mapFind_cons_ne kv rest k (fun hc => hkk hc.symm)]

theorem mapFind_mergedBase (ancs : List Env) (acc : Env) (k : String) :
    mapFind (ancs.foldl
        (fun acc e => e.foldl (fun a kv => mapInsertIfAbsent a kv.1 kv.2) acc)
        acc) k =
      (mapFind acc k).or (ancs.findSome? (fun e => mapFind e k)) := by
  induction ancs generalizing acc with
  | nil => simp [Option.or_none]
  | cons e rest ih =>
    rw [List.foldl_cons, ih, mapFind_foldl_iIA, Option.or_assoc]
    congr 1
    rw [List.findSome?_cons]
    cases mapFind e k <;> simp

theorem mapFind_foldl_insert_notmem (e : Env) (acc : Env) (k : String)
    (h : k ∉ e.map Prod.fst) :
    mapFind (e.foldl (fun a kv => mapInsert a kv.1 kv.2) acc) k = mapFind acc k := by
  induction e generalizing acc with
  | nil => rfl
  | cons kv rest ih =>
    simp only [List.map_cons, List.mem_cons, not_or] at h
    rw [List.foldl_cons, ih _ h.2, mapFind_mapInsert, if_neg h.1]

theorem mapFind_foldl_insert_nodup (own : Env) (base : Env) (k : String)
    (h : (own.map Prod.fst).Nodup) :
    mapFind (own.foldl (fun a kv => mapInsert a kv.1 kv.2) base) k =
      (mapFind own k).or (mapFind base k) := by
  induction own generalizing base with
  | nil => simp [mapFind, Option.or_none]
  | cons kv rest ih =>
    simp only [List.map_cons, List.nodup_cons] at h
    rw [List.foldl_cons]
    by_cases hkk : k = kv.1
    · have hnm : k ∉ rest.map Prod.fst := fun hc => h.1 (hkk ▸ hc)
      rw [mapFind_foldl_insert_notmem _ _ _ hnm, mapFind_mapInsert, if_pos hkk,
        mapFind_cons_self kv rest k hkk.symm]
      simp
    · rw [ih _ h.2, mapFind_cons_ne kv rest k (fun hc => hkk hc.symm),
        mapFind_mapInsert, if_neg hkk]

theorem keys_mapInsert (m : Env) (k v : String)
    (h : (m.map Prod.fst).Nodup) : ((mapInsert m k v).map Prod.fst).Nodup := by
  unfold mapInsert
  split
  · next hany =>
    have : (m.map (fun p : String × String => if p.1 == k then (p.1, v) else p)).map Prod.fst
        = m.map Prod.fst := by
      rw [List.map_map]
      congr 1
      funext p
      by_cases hpk : p.1 = k <;> simp [hpk]
    rw [this]
    exact h
  · next hany =>
    rw [List.map_append]
    rw [List.nodup_append]
    refine ⟨h, List.nodup_singleton k, ?_⟩
    intro x hx
    simp only [List.map_cons, List.map_nil, List.mem_singleton]
    intro hc
    subst hc
    rcases List.mem_map.mp hx with ⟨p, hp, hpk⟩
    exact hany (List.any_eq_true.mpr ⟨p, hp, by simp [hpk]⟩)

theorem keys_mapInsertIfAbsent (m : Env) (k v : String)
    (h : (m.map Prod.fst).Nodup) :
    ((mapInsertIfAbsent m k v).map Prod.fst).Nodup := by
  unfold mapInsertIfAbsent
  split
  · exact h
  · next hany =>
    rw [List.map_append, List.nodup_append]
    refine ⟨h, List.nodup_singleton k, ?_⟩
    intro x hx
    simp only [List.map_cons, List.map_nil, List.mem_singleton]
    intro hc
    subst hc
    rcases List.mem_map.mp hx with ⟨p, hp, hpk⟩
    exact hany (List.any_eq_true.mpr ⟨p, hp, by simp [hpk]⟩)

theorem keys_foldl_iIA (e : Env) (acc : Env)
    (h : (acc.map Prod.fst).Nodup) :
    ((e.foldl (fun a kv => mapInsertIfAbsent a kv.1 kv.2) acc).map Prod.fst).Nodup := by
  induction e generalizing acc with
  | nil => exact h
  | cons kv rest ih => exact ih _ (keys_mapInsertIfAbsent _ _ _ h)

theorem keys_foldl_insert (e : Env) (acc : Env)
    (h : (acc.map Prod.fst).Nodup) :
    ((e.foldl (fun a kv => mapInsert a kv.1 kv.2) acc).map Prod.fst).Nodup := by
  induction e generalizing acc with
  | nil => exact h
  | cons kv rest ih => exact ih _ (keys_mapInsert _ _ _ h)

theorem keys_foldl_ancestors (ancs : List Env) (acc : Env)
    (h : (acc.map Prod.fst).Nodup) :
    ((ancs.foldl
        (fun acc e => e.foldl (fun a kv => mapInsertIfAbsent a kv.1 kv.2) acc)
        acc).map Prod.fst).Nodup := by
  induction ancs generalizing acc with
  | nil => exact h
  | cons e rest ih => exact ih _ (keys_foldl_iIA _ _ h)

theorem keys_mergedEnvMap (ancestors : List Env) (own : Env) :
    ((mergedEnvMap ancestors own).map Prod.fst).Nodup := by
  unfold mergedEnvMap
  exact keys_foldl_insert _ _ (keys_foldl_ancestors _ _ (by simp))

theorem lookupLast_eq_mapFind (m : Env) (k : String)
    (h : (m.map Prod.fst).Nodup) : lookupLast m k = mapFind m k := by
  induction m with
  | nil => rfl
  | cons p rest ih =>
    simp only [List.map_cons, List.nodup_cons] at h
    unfold lookupLast
    rw [List.reverse_cons, List.find?_append]
    by_cases hpk : p.1 = k
    · have hnone : rest.reverse.find? (fun q => q.1 == k) = none := by
        rw [List.find?_eq_none]
        intro q hq hc
        simp only [beq_iff_eq] at hc
        apply h.1
        rw [hpk, ← hc]
        exact List.mem_map.mpr ⟨q, List.mem_reverse.mp hq, rfl⟩
      rw [hnone]
      simp [List.find?, hpk, mapFind_cons_self p rest k hpk]
    · cases hf : rest.reverse.find? (fun q => q.1 == k) with
      | none =>
        have hb : (p.1 == k) = false := by
          simp only [beq_eq_false_iff_ne, ne_eq]; exact hpk
        rw [mapFind_cons_ne p rest k hpk, ← ih h.2]
        unfold lookupLast
        simp [hf, List.find?, hb]
      | some q0 =>
        rw [mapFind_cons_ne p rest k hpk, ← ih h.2]
        unfold lookupLast
        simp [hf]

theorem lookupLast_append (a b : Env) (k : String) :
    lookupLast (a ++ b) k = (lookupLast b k).or (lookupLast a k) := by
  unfold lookupLast
  rw [List.reverse_append, List.find?_append]
  cases b.reverse.find? (fun p => p.1 == k) <;> simp

theorem C2_env_merge (procEnv : Env) (ancestors : List Env) (own : Env)
    (k : String) (hnd : (own.map Prod.fst).Nodup) :
    lookupLast (cmdEnvOf procEnv ancestors own) k =
      ((mapFind own k).or
        (ancestors.findSome? (fun e => mapFind e k))).or
        (lookupLast procEnv k) := by
  unfold cmdEnvOf
  rw [lookupLast_append, lookupLast_eq_mapFind _ _ (keys_mergedEnvMap _ _)]
  unfold mergedEnvMap
  rw [mapFind_foldl_insert_nodup _ _ _ hnd, mapFind_mergedBase]
  have : mapFind ([] : Env) k = none := rfl
  rw [this]
  simp

theorem C2_env_merge_witness :
    (([("A", "2"), ("B", "3")].map (Prod.fst (α := String) (β := String))).Nodup)
    ∧ lookupLast (cmdEnvOf [("A", "0"), ("C", "9")] [[("A", "1")]]
        [("A", "2"), ("B", "3")]) "A" = some "2"
    ∧ lookupLast (cmdEnvOf [("A", "0"), ("C", "9")] [[("A", "1")]]
        [("A", "2"), ("B", "3")]) "B" = some "3"
    ∧ lookupLast (cmdEnvOf [("A", "0"), ("C", "9")] [[("A", "1")]]
        [("A", "2"), ("B", "3")]) "C" = some "9" := by
  refine ⟨by decide, ?_, ?_, ?_⟩
  · rw [C2_env_merge _ _ _ _ (by decide)]; decide
  · rw [C2_env_merge _ _ _ _ (by decide)]; decide
  · rw [C2_env_merge _ _ _ _ (by decide)]; decide

/-! ## Argument building, dispatch, tables, lookup, locator, executor claims -/

theorem replaceFirst_placeholder (lit : String) :
    replaceFirst "$CODE" "$CODE" lit = lit := by
  simp [replaceFirst, replaceFirstL, List.isPrefixOf]

theorem replaceFirst_euc (lit : String) :
    replaceFirst "-euc" "$CODE" lit = "-euc" := by
  simp [replaceFirst, replaceFirstL, List.isPrefixOf]

theorem replaceFirst_ddash (lit : String) :
    replaceFirst "--" "$CODE" lit = "--" := by
  simp [replaceFirst, replaceFirstL, List.isPrefixOf]

theorem buildArgs_sh (lit : String) (args : List String) :
    buildArgs ⟨"sh", ["-euc", "$CODE", "--"]⟩ lit args =
      ["-euc", lit, "--"] ++ args := by
  unfold buildArgs
  simp only [List.map_cons, List.map_nil, replaceFirst_placeholder,
    replaceFirst_euc, replaceFirst_ddash]

/-- C5 counterexample. -/
theorem C5_counterexample :
    lookupLanguage "sh" = some ⟨"sh", ["-euc", "$CODE", "--"]⟩
    ∧ buildArgs ⟨"sh", ["-euc", "$CODE", "--"]⟩ "echo hi\n" ["foo"] =
        ["-euc", "echo hi\n", "--", "foo"]
    ∧ buildArgs ⟨"sh", ["-euc", "$CODE", "--"]⟩ "echo hi\n" ["foo"] ≠
        ["-euc", "echo hi", "--", "foo"] := by
  refine ⟨by decide, by decide, by decide⟩

/-- C5 amended. -/
theorem C5_args_substitution (lit : String) (args : List String)
    (env : Env) (oracle : SpawnReq → SpawnResult) :
    lookupLanguage "sh" = some ⟨"sh", ["-euc", "$CODE", "--"]⟩
    ∧ buildArgs ⟨"sh", ["-euc", "$CODE", "--"]⟩ lit args = ["-euc", lit, "--"] ++ args
    ∧ (executeBlocks oracle env args [⟨"sh", lit⟩]).1 =
        [⟨"sh", ["-euc", lit, "--"] ++ args, env⟩] := by
  refine ⟨by decide, buildArgs_sh lit args, ?_⟩
  show (executeBlocks oracle env args [⟨"sh", lit⟩]).1 = _
  unfold executeBlocks
  have hsh : lookupLanguage "sh" = some ⟨"sh", ["-euc", "$CODE", "--"]⟩ := by decide
  rw [hsh]
  simp only [buildArgs_sh]
  cases oracle ⟨"sh", ["-euc", lit, "--"] ++ args, env⟩ with
  | exited c => cases c <;> simp [executeBlocks]
  | spawnError m => simp

/-- C10. -/
theorem C10_empty_node_ok (h : String) (lv : Nat) (d : String) (e : Env)
    (ch : List MDNode) (procEnv : Env) (ancestors : List Env)
    (args : List String) (oracle : SpawnReq → SpawnResult) :
    executeNode procEnv ancestors (.mk h lv d e [] ch) args oracle =
      ([], .ok ()) := rfl

/-- C4 counterexample. -/
theorem C4_counterexample :
    lookupLanguage "SH" = none
    ∧ lookupLanguage "sh" = some ⟨"sh", ["-euc", "$CODE", "--"]⟩
    ∧ parseDoc false [.heading 1 "t", .code "SH" "echo hi\n"] =
        [.mk "t" 1 "" [] [] []]
    ∧ parseDoc false [.heading 1 "t", .code "sh" "echo hi\n"] =
        [.mk "t" 1 "" [] [⟨"sh", "echo hi\n"⟩] []] := by
  refine ⟨by decide, by decide, ?_, ?_⟩
  · have hSH : lookupLanguage "SH" = none := by decide
    simp [parseDoc, stepBlock, popGE, onTop, Frame.toNode, hSH]
  · have hsh : lookupLanguage "sh" = some ⟨"sh", ["-euc", "$CODE", "--"]⟩ := by
      decide
    simp [parseDoc, stepBlock, popGE, onTop, Frame.toNode, hsh]

/-- C4 amended. -/
theorem C4_case_sensitive_lookup (lit : String) (env : Env)
    (args : List String) (oracle : SpawnReq → SpawnResult)
    (rest : List CodeBlock) :
    lookupLanguage "SH" = none
    ∧ lookupLanguage "sh" = some ⟨"sh", ["-euc", "$CODE", "--"]⟩
    ∧ parseDoc false [.heading 1 "t", .code "SH" lit] = [.mk "t" 1 "" [] [] []]
    ∧ executeBlocks oracle env args (⟨"SH", lit⟩ :: rest) =
        ([], .error (.unsupportedLanguage "SH")) := by
  refine ⟨by decide, by decide, ?_, ?_⟩
  · have hSH : lookupLanguage "SH" = none := by decide
    simp [parseDoc, stepBlock, popGE, onTop, Frame.toNode, hSH]
  · have hSH : lookupLanguage "SH" = none := by decide
    unfold executeBlocks
    rw [hSH]

/-- C3 code-bug evaluation. -/
theorem C3_table_env_divergence :
    envFromTable [["value", "key"], ["1", "x"], ["2", "y"]] [] =
        [("value", "key"), ("1", "x"), ("2", "y")]
    ∧ tryCreateKeyValueMap ["value", "key"] [["1", "x"], ["2", "y"]] =
        some [("x", "1"), ("y", "2")]
    ∧ tryCreateKeyValueMap ["key", "value"] [["x", "1"], ["y", "2"]] =
        some [("x", "1"), ("y", "2")]
    ∧ tryCreateKeyValueMap ["Name", "Age"] [["John", "30"]] = none
    ∧ envFromTable [["Name", "Age"], ["John", "30"]] [] =
        [("Name", "Age"), ("John", "30")]
    ∧ envFromTable [["value", "key"], ["1", "x"], ["2", "y"]] [] ≠
        [("x", "1"), ("y", "2")] := by
  refine ⟨by decide, by decide, by decide, by decide, by decide, by decide⟩

theorem findDoc_eq_find? (program : String) (chain : List String)
    (isRegFile : String → Bool) :
    findDoc program chain isRegFile =
      (chain.flatMap (fun d => (docNames program).map (joinP d))).find? isRegFile := by
  induction chain with
  | nil => rfl
  | cons dir rest ih =>
    rw [List.flatMap_cons, List.find?_append, ← ih]
    show (match (docNames program).find? (fun n => isRegFile (joinP dir n)) with
          | some n => some (joinP dir n)
          | none => findDoc program rest isRegFile) = _
    have hm : ((docNames program).map (joinP dir)).find? isRegFile
        = ((docNames program).find? (fun n => isRegFile (joinP dir n))).map
            (joinP dir) := by
      rw [List.find?_map]
      rfl
    rw [hm]
    cases (docNames program).find? (fun n => isRegFile (joinP dir n)) with
    | none => simp
    | some n => simp

/-- C8. -/
theorem C8_doc_locator :
    (∀ (program : String) (chain : List String) (isRegFile : String → Bool),
      findDoc program chain isRegFile =
        (chain.flatMap (fun d => (docNames program).map (joinP d))).find? isRegFile)
    ∧ (∀ (program : String) (chain : List String) (isRegFile : String → Bool),
        (∀ c ∈ chain.flatMap (fun d => (docNames program).map (joinP d)),
          ¬ isRegFile c) →
        cMainFindDoc program chain isRegFile = .error 1)
    ∧ findDoc "cr" ["/a/b/c/d", "/a/b/c", "/a/b", "/a"]
        (fun p => p == "/a/README.md") = some "/a/README.md" := by
  refine ⟨findDoc_eq_find?, ?_, by decide⟩
  intro program chain isRegFile hnone
  unfold cMainFindDoc
  rw [findDoc_eq_find?]
  rw [List.find?_eq_none.mpr hnone]

theorem C8_doc_locator_witness :
    (∀ c ∈ (["/x"] : List String).flatMap
        (fun d => (docNames "cr").map (joinP d)), ¬ (fun _ => false) c)
    ∧ cMainFindDoc "cr" ["/x"] (fun _ => false) = .error 1 := by
  refine ⟨by decide, C8_doc_locator.2.1 "cr" ["/x"] (fun _ => false) (by decide)⟩

theorem findNode_eq_preorder (heading : String) :
    (ns : List MDNode) → findNode heading ns =
      (preorder ns).find? (fun n => eqFold n.heading heading)
  | [] => by simp [findNode, preorder]
  | .mk h lv d e cbs ch :: rest => by
    rw [findNode, preorder, List.find?]
    by_cases hq : eqFold (MDNode.mk h lv d e cbs ch).heading heading
    · simp [hq]
    · have hqf : (fun n => eqFold n.heading heading) (MDNode.mk h lv d e cbs ch) = false := by
        simp [hq]
      simp only [hq, if_false, hqf]
      rw [List.find?_append, ← findNode_eq_preorder heading ch,
        ← findNode_eq_preorder heading rest]
      cases findNode heading ch with
      | none => simp
      | some m => simp

/-- C7. -/
theorem C7_heading_lookup :
    (∀ (ns : List MDNode) (heading : String),
      findNode heading ns =
        (preorder ns).find? (fun n => eqFold n.heading heading))
    ∧ (∀ (ns : List MDNode) (heading : String),
        findNode heading ns = none → cMainFindNode ns heading = .error 1)
    ∧ eqFold "BUILD" "build" = true := by
  refine ⟨fun ns heading => findNode_eq_preorder heading ns, ?_, by decide⟩
  intro ns heading hnone
  unfold cMainFindNode
  rw [hnone]

theorem C7_heading_lookup_witness :
    findNode "missing" [MDNode.mk "build" 1 "" [] [] []] = none
    ∧ cMainFindNode [MDNode.mk "build" 1 "" [] [] []] "missing" = .error 1
    ∧ findNode "BUILD" [MDNode.mk "build" 1 "" [] [] []] =
        some (MDNode.mk "build" 1 "" [] [] []) := by
  have h1 : findNode "missing" [MDNode.mk "build" 1 "" [] [] []] = none := by
    simp [findNode, eqFold, MDNode.heading]
    decide
  refine ⟨h1, C7_heading_lookup.2.1 _ _ h1, ?_⟩
  simp [findNode, eqFold, MDNode.heading]
  decide

/-- C9. -/
theorem C9_first_failure_stops (oracle : SpawnReq → SpawnResult) (env : Env)
    (args : List String) (pre : List CodeBlock) (bad : CodeBlock)
    (post : List CodeBlock) (cfgb : LanguageConfig) (r : SpawnResult)
    (cfgOf : CodeBlock → LanguageConfig)
    (hpre : ∀ b ∈ pre, lookupLanguage b.info = some (cfgOf b) ∧
      oracle ⟨(cfgOf b).cmdName, buildArgs (cfgOf b) b.literal args, env⟩ =
        .exited 0)
    (hlook : lookupLanguage bad.info = some cfgb)
    (hr : oracle ⟨cfgb.cmdName, buildArgs cfgb bad.literal args, env⟩ = r)
    (hne : r ≠ .exited 0) :
    executeBlocks oracle env args (pre ++ bad :: post) =
      (pre.map (fun b =>
          ⟨(cfgOf b).cmdName, buildArgs (cfgOf b) b.literal args, env⟩)
        ++ [⟨cfgb.cmdName, buildArgs cfgb bad.literal args, env⟩],
       .error (.executionFailed r))
    ∧ cExecuteNodeExit oracle env args (pre ++ bad :: post) =
        (match r with
         | .exited c => c
         | .spawnError _ => 1) := by
  induction pre with
  | nil =>
    constructor
    · cases r with
      | exited c =>
        cases c with
        | zero => exact absurd rfl hne
        | succ c => simp [executeBlocks, hlook, hr]
      | spawnError m => simp [executeBlocks, hlook, hr]
    · cases r with
      | exited c =>
        cases c with
        | zero => exact absurd rfl hne
        | succ c => simp [cExecuteNodeExit, hlook, hr]
      | spawnError m => simp [cExecuteNodeExit, hlook, hr]
  | cons b pre ih =>
    have hb := hpre b (List.mem_cons_self b pre)
    have hrest : ∀ x ∈ pre, lookupLanguage x.info = some (cfgOf x) ∧
        oracle ⟨(cfgOf x).cmdName, buildArgs (cfgOf x) x.literal args, env⟩ =
          .exited 0 :=
      fun x hx => hpre x (List.mem_cons_of_mem b hx)
    have ihr := ih hrest
    constructor
    · simp only [List.cons_append, List.map_cons, executeBlocks, hb.1, hb.2,
        List.append_eq, ihr.1]
    · simp only [List.cons_append, cExecuteNodeExit, hb.1, hb.2,
        List.append_eq, ihr.2]

theorem C9_first_failure_stops_witness :
    (∀ b ∈ ([⟨"sh", "a"⟩] : List CodeBlock),
      lookupLanguage b.info = some ⟨"sh", ["-euc", "$CODE", "--"]⟩ ∧
      (fun req : SpawnReq =>
          if req.args.contains "b" then SpawnResult.exited 7
          else SpawnResult.exited 0) ⟨"sh",
        buildArgs ⟨"sh", ["-euc", "$CODE", "--"]⟩ b.literal [], []⟩ =
        .exited 0)
    ∧ executeBlocks
        (fun req : SpawnReq =>
          if req.args.contains "b" then SpawnResult.exited 7
          else SpawnResult.exited 0) [] []
        ([⟨"sh", "a"⟩] ++ ⟨"sh", "b"⟩ :: [⟨"sh", "c"⟩]) =
        ([⟨"sh", ["-euc", "a", "--"], []⟩, ⟨"sh", ["-euc", "b", "--"], []⟩],
          .error (.executionFailed (.exited 7)))
    ∧ cExecuteNodeExit
        (fun req : SpawnReq =>
          if req.args.contains "b" then SpawnResult.exited 7
          else SpawnResult.exited 0) [] []
        ([⟨"sh", "a"⟩] ++ ⟨"sh", "b"⟩ :: [⟨"sh", "c"⟩]) = 7 := by
  have hpre : ∀ b ∈ ([⟨"sh", "a"⟩] : List CodeBlock),
      lookupLanguage b.info = some ⟨"sh", ["-euc", "$CODE", "--"]⟩ ∧
      (fun req : SpawnReq =>
          if req.args.contains "b" then SpawnResult.exited 7
          else SpawnResult.exited 0) ⟨"sh",
        buildArgs ⟨"sh", ["-euc", "$CODE", "--"]⟩ b.literal [], []⟩ =
        .exited 0 := by
    intro b hb
    simp only [List.mem_singleton] at hb
    subst hb
    refine ⟨by decide, by decide⟩
  have h := C9_first_failure_stops
    (fun req : SpawnReq =>
      if req.args.contains "b" then SpawnResult.exited 7
      else SpawnResult.exited 0) [] []
    [⟨"sh", "a"⟩] ⟨"sh", "b"⟩ [⟨"sh", "c"⟩] ⟨"sh", ["-euc", "$CODE", "--"]⟩
    (.exited 7) (fun _ => ⟨"sh", ["-euc", "$CODE", "--"]⟩)
    hpre (by decide) (by decide) (by decide)
  refine ⟨hpre, ?_, ?_⟩
  · rw [h.1]
    rfl
  · rw [h.2]

/-! ## Unknown-language claim -/

theorem forestLangsOK_append (a b : List MDNode) :
    forestLangsOK (a ++ b) = (forestLangsOK a && forestLangsOK b) := by
  induction a with
  | nil => simp [forestLangsOK]
  | cons n ns ih =>
    simp only [List.cons_append, forestLangsOK, List.append_eq]
    rw [ih, Bool.and_assoc]

theorem popGE_langsOK (lv : Nat) : ∀ (s : List Frame) (d : List MDNode),
    s.all frameLangsOK = true → forestLangsOK d = true →
    ((popGE lv s d).1.all frameLangsOK = true ∧
      forestLangsOK (popGE lv s d).2 = true)
  | [], d, hs, hd => by
    unfold popGE
    exact ⟨hs, hd⟩
  | [f], d, hs, hd => by
    rw [popGE]
    split
    · apply popGE_langsOK lv [] (d ++ [f.toNode])
      · rfl
      · rw [forestLangsOK_append, hd]
        simp only [List.all_cons, List.all_nil, Bool.and_true] at hs
        unfold frameLangsOK at hs
        simp [forestLangsOK, nodeLangsOK, Frame.toNode, hs]
    · exact ⟨hs, hd⟩
  | f :: g :: rest, d, hs, hd => by
    rw [popGE]
    split
    · simp only [List.all_cons, Bool.and_eq_true] at hs
      apply popGE_langsOK lv ({ g with children := g.children ++ [f.toNode] } :: rest) d
      · simp only [List.all_cons, Bool.and_eq_true]
        refine And.intro ?_ hs.2.2
        unfold frameLangsOK at hs ⊢
        simp only [forestLangsOK_append]
        have hf := hs.1
        have hg := hs.2.1
        unfold frameLangsOK at hf hg
        simp only [Bool.and_eq_true] at hf hg ⊢
        refine ⟨hg.1, hg.2, ?_⟩
        simp [forestLangsOK, nodeLangsOK, Frame.toNode, hf.1, hf.2]
      · exact hd
    · exact ⟨hs, hd⟩
termination_by s _ => s.length

theorem stepBlock_langsOK (st : List Frame × List MDNode) (b : Block)
    (hs : st.1.all frameLangsOK = true) (hd : forestLangsOK st.2 = true) :
    ((stepBlock false st b).1.all frameLangsOK = true ∧
      forestLangsOK (stepBlock false st b).2 = true) := by
  cases b with
  | heading lv tx =>
    have h := popGE_langsOK lv st.1 st.2 hs hd
    unfold stepBlock
    refine ⟨?_, h.2⟩
    simp only [List.all_cons, h.1, Bool.and_true]
    simp [frameLangsOK, blocksKnown, forestLangsOK]
  | para tx =>
    unfold stepBlock onTop
    cases st with
    | mk s d =>
      cases s with
      | nil => exact ⟨hs, hd⟩
      | cons f rest =>
        simp only [List.all_cons, Bool.and_eq_true] at hs
        refine ⟨?_, hd⟩
        simp only [List.all_cons, Bool.and_eq_true]
        refine ⟨?_, hs.2⟩
        split <;> simp_all [frameLangsOK]
  | code info lit =>
    simp only [stepBlock]
    unfold onTop
    cases st with
    | mk s d =>
      cases s with
      | nil => exact ⟨hs, hd⟩
      | cons f rest =>
        simp only [List.all_cons, Bool.and_eq_true] at hs
        refine ⟨?_, hd⟩
        simp only [List.all_cons, Bool.and_eq_true]
        refine ⟨?_, hs.2⟩
        have hf := hs.1
        unfold frameLangsOK at hf ⊢
        simp only [Bool.false_or]
        split
        · next hsome =>
          simp only [Bool.and_eq_true] at hf ⊢
          refine ⟨?_, hf.2⟩
          unfold blocksKnown at hf ⊢
          rw [List.all_append]
          simp only [Bool.and_eq_true]
          refine ⟨hf.1, ?_⟩
          simp only [List.all_cons, List.all_nil, Bool.and_true]
          simpa using hsome
        · exact hf
  | table rows =>
    simp only [stepBlock]
    unfold onTop
    cases st with
    | mk s d =>
      cases s with
      | nil => exact ⟨hs, hd⟩
      | cons f rest =>
        simp only [List.all_cons, Bool.and_eq_true] at hs
        refine ⟨?_, hd⟩
        simp only [List.all_cons, Bool.and_eq_true]
        exact ⟨hs.1, hs.2⟩

theorem foldl_stepBlock_langsOK (blocks : List Block)
    (st : List Frame × List MDNode)
    (hs : st.1.all frameLangsOK = true) (hd : forestLangsOK st.2 = true) :
    ((blocks.foldl (stepBlock false) st).1.all frameLangsOK = true ∧
      forestLangsOK (blocks.foldl (stepBlock false) st).2 = true) := by
  induction blocks generalizing st with
  | nil => exact ⟨hs, hd⟩
  | cons b rest ih =>
    rw [List.foldl_cons]
    have h := stepBlock_langsOK st b hs hd
    exact ih _ h.1 h.2

theorem parseDoc_langsOK (blocks : List Block) :
    forestLangsOK (parseDoc false blocks) = true := by
  unfold parseDoc
  have h := foldl_stepBlock_langsOK blocks ([], []) rfl rfl
  exact (popGE_langsOK 0 _ _ h.1 h.2).2

/-- C6. -/
theorem C6_unknown_language_dropped :
    (∀ blocks : List Block, forestLangsOK (parseDoc false blocks) = true)
    ∧ lookupLanguage "cobol" = none
    ∧ parseDoc true [.heading 1 "T", .code "cobol" "X"] =
        [.mk "T" 1 "" [] [⟨"cobol", "X"⟩] []]
    ∧ (∀ (env : Env) (args : List String) (oracle : SpawnReq → SpawnResult)
        (lit : String) (rest : List CodeBlock),
        executeBlocks oracle env args (⟨"cobol", lit⟩ :: rest) =
          ([], .error (.unsupportedLanguage "cobol"))) := by
  refine ⟨parseDoc_langsOK, by decide, ?_, ?_⟩
  · simp [parseDoc, stepBlock, popGE, onTop, Frame.toNode]
  · intro env args oracle lit rest
    have hc : lookupLanguage "cobol" = none := by decide
    unfold executeBlocks
    rw [hc]


/-! ## Heading-tree structure claim -/

theorem skelL_append (a b : List MDNode) :
    skelL (a ++ b) = skelL a ++ skelL b := by
  induction a with
  | nil => simp [skelL]
  | cons n ns ih => simp [skelL, ih]

theorem skelN_toNode (f : Frame) : skelN f.toNode = (skelF f).toTree := by
  simp [skelN, skelF, Frame.toNode, SFrame.toTree]

theorem popGE_skel (lv : Nat) : ∀ (s : List Frame) (d : List MDNode),
    sPopGE lv (s.map skelF) (skelL d) =
      ((popGE lv s d).1.map skelF, skelL (popGE lv s d).2)
  | [], d => by
    simp [popGE, sPopGE]
  | [f], d => by
    simp only [List.map_cons, List.map_nil]
    by_cases h : lv ≤ f.level
    · rw [popGE, if_pos h, sPopGE, if_pos (show lv ≤ (skelF f).level from h)]
      have he : skelL d ++ [(skelF f).toTree] = skelL (d ++ [f.toNode]) := by
        rw [skelL_append]
        simp [skelL, skelN_toNode]
      rw [he]
      exact popGE_skel lv [] (d ++ [f.toNode])
    · rw [popGE, if_neg h, sPopGE, if_neg (show ¬ lv ≤ (skelF f).level from h)]
      simp
  | f :: g :: rest, d => by
    simp only [List.map_cons]
    by_cases h : lv ≤ f.level
    · rw [popGE, if_pos h, sPopGE, if_pos (show lv ≤ (skelF f).level from h)]
      have he : ({ skelF g with
            children := (skelF g).children ++ [(skelF f).toTree] } : SFrame) ::
            rest.map skelF
          = ({ g with children := g.children ++ [f.toNode] } :: rest).map skelF := by
        simp [skelF, skelL_append, skelL, skelN_toNode]
      rw [he]
      exact popGE_skel lv _ d
    · rw [popGE, if_neg h, sPopGE, if_neg (show ¬ lv ≤ (skelF f).level from h)]
      simp
  termination_by s _ => s.length

theorem stepBlock_skel (all : Bool) (st : List Frame × List MDNode) (b : Block) :
    ((stepBlock all st b).1.map skelF, skelL (stepBlock all st b).2) =
      (match b with
       | .heading lv tx => sStep (st.1.map skelF, skelL st.2) (lv, tx)
       | _ => (st.1.map skelF, skelL st.2)) := by
  cases b with
  | heading lv tx =>
    simp only [stepBlock]
    rcases hp : popGE lv st.1 st.2 with ⟨ps, pd⟩
    have hsk := popGE_skel lv st.1 st.2
    rw [hp] at hsk
    unfold sStep
    rw [hsk]
    simp [skelF, skelL]
  | para tx =>
    simp only [stepBlock]
    unfold onTop
    cases st with
    | mk s d =>
      cases s with
      | nil => rfl
      | cons f rest =>
        simp only [List.map_cons]
        congr 1
        congr 1
        split <;> simp [skelF]
  | code info lit =>
    simp only [stepBlock]
    unfold onTop
    cases st with
    | mk s d =>
      cases s with
      | nil => rfl
      | cons f rest =>
        simp only [List.map_cons]
        congr 1
        congr 1
        split <;> simp [skelF]
  | table rows =>
    simp only [stepBlock]
    unfold onTop
    cases st with
    | mk s d =>
      cases s with
      | nil => rfl
      | cons f rest => simp [skelF]

theorem foldl_skel (all : Bool) (blocks : List Block)
    (st : List Frame × List MDNode) :
    ((blocks.foldl (stepBlock all) st).1.map skelF,
      skelL (blocks.foldl (stepBlock all) st).2) =
      (headingsOf blocks).foldl sStep (st.1.map skelF, skelL st.2) := by
  induction blocks generalizing st with
  | nil => rfl
  | cons b rest ih =>
    rw [List.foldl_cons, ih]
    cases b with
    | heading lv tx =>
      have h := stepBlock_skel all st (.heading lv tx)
      simp only at h
      rw [h]
      rfl
    | para tx =>
      have h := stepBlock_skel all st (.para tx)
      simp only at h
      rw [h]
      rfl
    | code info lit =>
      have h := stepBlock_skel all st (.code info lit)
      simp only at h
      rw [h]
      rfl
    | table rows =>
      have h := stepBlock_skel all st (.table rows)
      simp only at h
      rw [h]
      rfl

theorem parseDoc_skel (all : Bool) (blocks : List Block) :
    skelL (parseDoc all blocks) = sBuild (headingsOf blocks) := by
  unfold parseDoc sBuild
  have h := foldl_skel all blocks ([], [])
  simp only [List.map_nil] at h
  have hs : skelL ([] : List MDNode) = [] := rfl
  rw [hs] at h
  have hpop := popGE_skel 0 (blocks.foldl (stepBlock all) ([], [])).1
    (blocks.foldl (stepBlock all) ([], [])).2
  have h1 : ((headingsOf blocks).foldl sStep ([], [])).1 =
      (blocks.foldl (stepBlock all) ([], [])).1.map skelF := by
    rw [← h]
  have h2 : ((headingsOf blocks).foldl sStep ([], [])).2 =
      skelL (blocks.foldl (stepBlock all) ([], [])).2 := by
    rw [← h]
  show skelL (popGE 0 (blocks.foldl (stepBlock all) ([], [])).1
      (blocks.foldl (stepBlock all) ([], [])).2).2
    = (sPopGE 0 ((headingsOf blocks).foldl sStep ([], [])).1
        ((headingsOf blocks).foldl sStep ([], [])).2).2
  rw [h1, h2, hpop]

theorem sPopGE_done (lv : Nat) : ∀ (s : List SFrame) (d0 d : List STree),
    sPopGE lv s (d0 ++ d) = ((sPopGE lv s d).1, d0 ++ (sPopGE lv s d).2)
  | [], d0, d => by simp [sPopGE]
  | [f], d0, d => by
    by_cases h : lv ≤ f.level
    · simp [sPopGE, h, List.append_assoc]
    · simp [sPopGE, h]
  | f :: g :: rest, d0, d => by
    by_cases h : lv ≤ f.level
    · rw [sPopGE, if_pos h, sPopGE, if_pos h]
      exact sPopGE_done lv _ d0 d
    · rw [sPopGE, if_neg h, sPopGE, if_neg h]
  termination_by s _ _ => s.length

theorem sStep_done (s : List SFrame) (d0 d : List STree) (h : Nat × String) :
    sStep (s, d0 ++ d) h = ((sStep (s, d) h).1, d0 ++ (sStep (s, d) h).2) := by
  unfold sStep
  rw [sPopGE_done h.1 s d0 d]

theorem foldl_sStep_done (hs : List (Nat × String)) :
    ∀ (s : List SFrame) (d0 d : List STree),
    hs.foldl sStep (s, d0 ++ d) =
      ((hs.foldl sStep (s, d)).1, d0 ++ (hs.foldl sStep (s, d)).2) := by
  induction hs with
  | nil => intro s d0 d; rfl
  | cons h t ih =>
    intro s d0 d
    rw [List.foldl_cons, List.foldl_cons, sStep_done s d0 d h]
    have := ih (sStep (s, d) h).1 d0 (sStep (s, d) h).2
    simpa using this

theorem sPopGE_pop_step (lv : Nat) (f : SFrame) (S : List SFrame)
    (d : List STree) (h : lv ≤ f.level) :
    sPopGE lv (f :: S) d =
      sPopGE lv (sAttach S d f.toTree).1 (sAttach S d f.toTree).2 := by
  cases S with
  | nil => rw [sPopGE, if_pos h]; rfl
  | cons g gs => rw [sPopGE, if_pos h]; rfl

theorem sPopGE_nopop (lv : Nat) (f : SFrame) (S : List SFrame)
    (d : List STree) (h : ¬ lv ≤ f.level) :
    sPopGE lv (f :: S) d = (f :: S, d) := by
  cases S with
  | nil => rw [sPopGE, if_neg h]
  | cons g gs => rw [sPopGE, if_neg h]

theorem takeWhile_takeWhile_imp {α : Type} (p q : α → Bool) (l : List α)
    (himp : ∀ x, p x = true → q x = true) :
    (l.takeWhile q).takeWhile p = l.takeWhile p := by
  induction l with
  | nil => rfl
  | cons a t ih =>
    by_cases hq : q a
    · by_cases hp : p a
      · simp [List.takeWhile_cons, hp, hq, ih]
      · simp [List.takeWhile_cons, hp, hq]
    · have hp : ¬ p a = true := fun hc => hq (himp a hc)
      simp [List.takeWhile_cons, hp, hq]

theorem dropWhile_takeWhile_comm {α : Type} (p q : α → Bool) (l : List α)
    (himp : ∀ x, p x = true → q x = true) :
    (l.takeWhile q).dropWhile p = (l.dropWhile p).takeWhile q := by
  induction l with
  | nil => rfl
  | cons a t ih =>
    by_cases hp : p a
    · simp [List.takeWhile_cons, List.dropWhile_cons, hp, himp a hp, ih]
    · by_cases hq : q a
      · simp [List.takeWhile_cons, List.dropWhile_cons, hp, hq]
      · simp [List.takeWhile_cons, List.dropWhile_cons, hp, hq]

theorem dropWhile_dropWhile_imp {α : Type} (p q : α → Bool) (l : List α)
    (himp : ∀ x, p x = true → q x = true) :
    (l.dropWhile p).dropWhile q = l.dropWhile q := by
  induction l with
  | nil => rfl
  | cons a t ih =>
    by_cases hp : p a
    · simp [List.dropWhile_cons, hp, himp a hp, ih]
    · simp [List.dropWhile_cons, hp]

theorem sL1 (n : Nat) : ∀ (hs : List (Nat × String)) (f : SFrame)
    (S : List SFrame) (d : List STree), hs.length ≤ n →
    sFlush (hs.foldl sStep (f :: S, d)) =
      sFlush ((hs.dropWhile (fun x => f.level < x.1)).foldl sStep
        (sAttach S d (STree.node f.level f.text
          (f.children ++ buildR (hs.takeWhile (fun x => f.level < x.1)))))) := by
  induction n with
  | zero =>
    intro hs f S d hlen
    have hnil : hs = [] := List.length_eq_zero.mp (Nat.le_zero.mp hlen)
    subst hnil
    simp only [List.foldl_nil, List.takeWhile_nil, List.dropWhile_nil, buildR,
      List.append_nil]
    unfold sFlush
    rw [sPopGE_pop_step 0 f S d (Nat.zero_le _)]
    rfl
  | succ m ih =>
    intro hs f S d hlen
    cases hs with
    | nil =>
      simp only [List.foldl_nil, List.takeWhile_nil, List.dropWhile_nil,
        buildR, List.append_nil]
      unfold sFlush
      rw [sPopGE_pop_step 0 f S d (Nat.zero_le _)]
      rfl
    | cons h t =>
      simp only [List.length_cons, Nat.succ_le_succ_iff] at hlen
      by_cases hgt : f.level < h.1
      · -- the new heading nests under f: nothing pops
        simp only [List.takeWhile_cons, List.dropWhile_cons,
          decide_eq_true_eq, hgt, if_true]
        rw [List.foldl_cons]
        have hstep : sStep ((f :: S), d) h = (⟨h.1, h.2, []⟩ :: f :: S, d) := by
          unfold sStep
          rw [sPopGE_nopop h.1 f S d (Nat.not_le.mpr hgt)]
        rw [hstep]
        have himp : ∀ x : Nat × String,
            (fun x : Nat × String => decide (h.1 < x.1)) x = true →
            (fun x : Nat × String => decide (f.level < x.1)) x = true := by
          intro x hx
          simp only [decide_eq_true_eq] at hx ⊢
          omega
        have ih1 := ih t ⟨h.1, h.2, []⟩ (f :: S) d hlen
        simp only at ih1
        rw [ih1]
        have hatt : sAttach (f :: S) d
            (STree.node h.1 h.2 ([] ++ buildR (t.takeWhile (fun x => h.1 < x.1))))
            = ({ f with children := f.children ++
                [STree.node h.1 h.2 (buildR (t.takeWhile (fun x => h.1 < x.1)))] }
                :: S, d) := by
          simp [sAttach]
        rw [hatt]
        have ih2 := ih (t.dropWhile (fun x => h.1 < x.1))
          { f with children := f.children ++
            [STree.node h.1 h.2 (buildR (t.takeWhile (fun x => h.1 < x.1)))] }
          S d (Nat.le_trans ((List.dropWhile_sublist _).length_le) hlen)
        simp only at ih2
        rw [ih2]
        rw [dropWhile_dropWhile_imp _ _ t himp]
        have hbr : buildR (h :: t.takeWhile (fun x => f.level < x.1)) =
            STree.node h.1 h.2 (buildR (t.takeWhile (fun x => h.1 < x.1))) ::
              buildR ((t.dropWhile (fun x => h.1 < x.1)).takeWhile
                (fun x => f.level < x.1)) := by
          rw [buildR]
          rw [takeWhile_takeWhile_imp _ _ t himp]
          rw [dropWhile_takeWhile_comm _ _ t himp]
        rw [hbr]
        rw [List.append_assoc, List.singleton_append]
      · -- the new heading closes f
        simp only [List.takeWhile_cons, List.dropWhile_cons,
          decide_eq_true_eq, hgt, if_false]
        simp only [buildR, List.append_nil]
        rw [List.foldl_cons, List.foldl_cons]
        have hstep : sStep ((f :: S), d) h =
            sStep (sAttach S d f.toTree) h := by
          unfold sStep
          rw [sPopGE_pop_step h.1 f S d (Nat.not_lt.mp hgt)]
        rw [hstep]
        have htt : (STree.node f.level f.text f.children) = f.toTree := rfl
        rw [htt]

theorem sBuild_eq_buildR_aux (n : Nat) : ∀ (hs : List (Nat × String)),
    hs.length ≤ n → sBuild hs = buildR hs := by
  induction n with
  | zero =>
    intro hs hlen
    have hnil : hs = [] := List.length_eq_zero.mp (Nat.le_zero.mp hlen)
    subst hnil
    simp [sBuild, sPopGE, buildR]
  | succ m ih =>
    intro hs hlen
    cases hs with
    | nil => simp [sBuild, sPopGE, buildR]
    | cons h t =>
      simp only [List.length_cons, Nat.succ_le_succ_iff] at hlen
      unfold sBuild
      rw [List.foldl_cons]
      have hstep : sStep (([] : List SFrame), ([] : List STree)) h =
          ([⟨h.1, h.2, []⟩], []) := by
        unfold sStep
        rw [sPopGE]
      rw [hstep]
      have hl1 := sL1 m t ⟨h.1, h.2, []⟩ [] [] hlen
      simp only at hl1
      unfold sFlush at hl1
      rw [hl1]
      have hatt : sAttach [] []
          (STree.node h.1 h.2 ([] ++ buildR (t.takeWhile (fun x => h.1 < x.1))))
          = ([], [STree.node h.1 h.2 (buildR (t.takeWhile (fun x => h.1 < x.1)))]) := by
        simp [sAttach]
      rw [hatt]
      have hdone := foldl_sStep_done (t.dropWhile (fun x => h.1 < x.1)) []
        [STree.node h.1 h.2 (buildR (t.takeWhile (fun x => h.1 < x.1)))] []
      simp only [List.append_nil] at hdone
      rw [hdone]
      rcases hfold : (t.dropWhile (fun x => h.1 < x.1)).foldl sStep
          (([] : List SFrame), ([] : List STree)) with ⟨fs, fd⟩
      rw [hfold]
      simp only
      rw [sPopGE_done 0 fs
        [STree.node h.1 h.2 (buildR (t.takeWhile (fun x => h.1 < x.1)))] fd]
      simp only
      have hihr := ih (t.dropWhile (fun x => h.1 < x.1))
        (Nat.le_trans ((List.dropWhile_sublist _).length_le) hlen)
      unfold sBuild at hihr
      rw [hfold] at hihr
      simp only at hihr
      rw [hihr]
      rw [buildR]
      rfl

theorem sBuild_eq_buildR (hs : List (Nat × String)) : sBuild hs = buildR hs :=
  sBuild_eq_buildR_aux hs.length hs (Nat.le_refl _)

theorem lastSmaller_append (x : Nat) (a b : List Nat) :
    lastSmaller x (a ++ b) =
      match lastSmaller x b with
      | some j => some (a.length + j)
      | none => lastSmaller x a := by
  induction a with
  | nil =>
    simp only [List.nil_append, List.length_nil, Nat.zero_add]
    cases lastSmaller x b with
    | none => rfl
    | some j => rfl
  | cons c t ih =>
    rw [List.cons_append, lastSmaller, ih, lastSmaller]
    cases lastSmaller x b with
    | none => rfl
    | some j => simp [Nat.add_assoc, Nat.add_comm 1 j, Nat.succ_add]

theorem lastSmaller_eq_none_iff (x : Nat) (l : List Nat) :
    lastSmaller x l = none ↔ ∀ z ∈ l, ¬ z < x := by
  induction l with
  | nil => simp [lastSmaller]
  | cons a t ih =>
    rw [lastSmaller]
    cases ht : lastSmaller x t with
    | some j =>
      simp only
      constructor
      · intro hc; exact absurd hc (by simp)
      · intro hall
        have hn : lastSmaller x t = none :=
          ih.mpr (fun z hz => hall z (List.mem_cons_of_mem a hz))
        rw [ht] at hn
        exact absurd hn (by simp)
    | none =>
      simp only
      rw [ht] at ih
      constructor
      · intro hc
        by_cases ha : a < x
        · rw [if_pos ha] at hc; exact absurd hc (by simp)
        · intro z hz
          rcases List.mem_cons.mp hz with h1 | h2
          · subst h1; exact ha
          · exact (ih.mp rfl) z h2
      · intro hall
        rw [if_neg (hall a (List.mem_cons_self a t))]

theorem specNearestParent_append (c0 : Nat) (p : Option Nat)
    (A B : List (Nat × String)) : ∀ (pre : List Nat),
    specNearestParent c0 p pre (A ++ B) =
      specNearestParent c0 p pre A ++
        specNearestParent c0 p (pre ++ A.map Prod.fst) B := by
  induction A with
  | nil => intro pre; simp [specNearestParent]
  | cons h t ih =>
    intro pre
    rw [List.cons_append, specNearestParent, specNearestParent, ih]
    simp [List.append_assoc]

theorem specNearestParent_inner (c : Nat) (p : Option Nat) (h1 : Nat) :
    ∀ (inner : List (Nat × String)) (ipre : List Nat),
    (∀ x ∈ inner, h1 < x.1) →
    specNearestParent c p (h1 :: ipre) inner =
      specNearestParent (c + 1) (some c) ipre inner := by
  intro inner
  induction inner with
  | nil => intro ipre hin; rfl
  | cons x t ih =>
    intro ipre hin
    rw [specNearestParent, specNearestParent, lastSmaller]
    have hx : h1 < x.1 := hin x (List.mem_cons_self x t)
    have htail := ih (ipre ++ [x.1])
      (fun z hz => hin z (List.mem_cons_of_mem x hz))
    rw [List.cons_append, htail]
    congr 1
    cases hls : lastSmaller x.1 ipre with
    | some j =>
      simp only
      rw [show c + (j + 1) = c + 1 + j from by omega]
    | none =>
      simp only [if_pos hx, Nat.add_zero]

theorem specNearestParent_outer (c : Nat) (p : Option Nat) (h1 : Nat)
    (lsInner : List Nat) (hin : ∀ z ∈ lsInner, h1 < z) :
    ∀ (outer : List (Nat × String)) (opre : List Nat),
    (∀ l0, (opre ++ outer.map Prod.fst).head? = some l0 → l0 ≤ h1) →
    specNearestParent c p (h1 :: lsInner ++ opre) outer =
      specNearestParent (c + 1 + lsInner.length) p opre outer := by
  intro outer
  induction outer with
  | nil => intro opre hfirst; rfl
  | cons x t ih =>
    intro opre hfirst
    rw [specNearestParent, specNearestParent]
    have hsplit := lastSmaller_append x.1 (h1 :: lsInner) opre
    have hxh : opre = [] → x.1 ≤ h1 := by
      intro hop
      subst hop
      exact hfirst x.1 (by simp)
    have hfirst2 : ∀ l0,
        ((opre ++ [x.1]) ++ t.map Prod.fst).head? = some l0 → l0 ≤ h1 := by
      intro l0 hl0
      cases opre with
      | nil =>
        simp only [List.nil_append, List.cons_append, List.head?_cons,
          Option.some_inj] at hl0
        subst hl0
        exact hxh rfl
      | cons o0 os =>
        apply hfirst l0
        simpa using hl0
    have htail := ih (opre ++ [x.1]) hfirst2
    have hpre : (h1 :: lsInner ++ opre) ++ [x.1] =
        h1 :: lsInner ++ (opre ++ [x.1]) := by
      simp [List.append_assoc]
    rw [hpre, htail]
    congr 1
    rw [hsplit]
    cases hls : lastSmaller x.1 opre with
    | some j =>
      simp only [List.length_cons]
      rw [show c + (lsInner.length + 1 + j) = c + 1 + lsInner.length + j from
        by omega]
    | none =>
      simp only
      have hnone2 : lastSmaller x.1 (h1 :: lsInner) = none := by
        rw [lastSmaller_eq_none_iff]
        intro z hz
        rcases List.mem_cons.mp hz with h1z | h2z
        · have hx1 : x.1 ≤ h1 := by
            cases opre with
            | nil => exact hxh rfl
            | cons o0 os =>
              have ho0 : ¬ o0 < x.1 :=
                (lastSmaller_eq_none_iff x.1 (o0 :: os)).mp hls o0
                  (List.mem_cons_self o0 os)
              have hoh : o0 ≤ h1 := hfirst o0 (by simp)
              omega
          omega
        · have : h1 < z := hin z h2z
          have hx1 : x.1 ≤ h1 := by
            cases opre with
            | nil => exact hxh rfl
            | cons o0 os =>
              have ho0 : ¬ o0 < x.1 :=
                (lastSmaller_eq_none_iff x.1 (o0 :: os)).mp hls o0
                  (List.mem_cons_self o0 os)
              have hoh : o0 ≤ h1 := hfirst o0 (by simp)
              omega
          omega
      rw [hnone2]

theorem flatL_buildR (n : Nat) : ∀ (hs : List (Nat × String)) (p : Option Nat)
    (c : Nat), hs.length ≤ n →
    flatL p c (buildR hs) = (specNearestParent c p [] hs, c + hs.length) := by
  induction n with
  | zero =>
    intro hs p c hlen
    have hnil : hs = [] := List.length_eq_zero.mp (Nat.le_zero.mp hlen)
    subst hnil
    rw [buildR]
    simp [flatL, specNearestParent]
  | succ m ih =>
    intro hs p c hlen
    cases hs with
    | nil =>
      rw [buildR]
      simp [flatL, specNearestParent]
    | cons h t =>
      simp only [List.length_cons, Nat.succ_le_succ_iff] at hlen
      have hinl : (t.takeWhile (fun x => h.1 < x.1)).length ≤ m :=
        Nat.le_trans ((List.takeWhile_sublist _).length_le) hlen
      have houtl : (t.dropWhile (fun x => h.1 < x.1)).length ≤ m :=
        Nat.le_trans ((List.dropWhile_sublist _).length_le) hlen
      have hinner := ih (t.takeWhile (fun x => h.1 < x.1)) (some c) (c + 1) hinl
      have houter := ih (t.dropWhile (fun x => h.1 < x.1)) p
        (c + 1 + (t.takeWhile (fun x => h.1 < x.1)).length) houtl
      rw [buildR]
      rw [flatL, flatT, hinner]
      simp only
      rw [houter]
      simp only
      have hlensum : (t.takeWhile (fun x => h.1 < x.1)).length +
          (t.dropWhile (fun x => h.1 < x.1)).length = t.length := by
        conv_rhs => rw [← List.takeWhile_append_dropWhile
          (fun x : Nat × String => decide (h.1 < x.1)) t]
        rw [List.length_append]
      rw [Prod.mk.injEq]
      refine ⟨?_, by simp only [List.length_cons]; omega⟩
      rw [specNearestParent]
      simp only [lastSmaller, List.nil_append]
      have hdec : t = t.takeWhile (fun x => h.1 < x.1) ++
          t.dropWhile (fun x => h.1 < x.1) :=
        (List.takeWhile_append_dropWhile _ t).symm
      conv_rhs => rw [hdec]
      rw [specNearestParent_append]
      have hin1 : ∀ x ∈ t.takeWhile (fun x : Nat × String => h.1 < x.1),
          h.1 < x.1 := by
        intro x hx
        have := List.mem_takeWhile_imp hx
        simpa using this
      have hinner2 := specNearestParent_inner c p h.1
        (t.takeWhile (fun x => h.1 < x.1)) [] hin1
      have houter2 := specNearestParent_outer c p h.1
        ((t.takeWhile (fun x => h.1 < x.1)).map Prod.fst)
        (by
          intro z hz
          rcases List.mem_map.mp hz with ⟨y, hy, hyz⟩
          rw [← hyz]
          exact hin1 y hy)
        (t.dropWhile (fun x => h.1 < x.1)) []
        (by
          intro l0 hl0
          simp only [List.nil_append, List.head?_map] at hl0
          cases hh : (t.dropWhile (fun x : Nat × String => h.1 < x.1)).head? with
          | none => rw [hh] at hl0; exact absurd hl0 (by simp)
          | some y =>
            rw [hh] at hl0
            have hl0e : y.1 = l0 := Option.some.inj hl0
            have hy := List.head?_dropWhile_not
              (fun x : Nat × String => decide (h.1 < x.1)) t
            rw [hh] at hy
            have hyn0 : decide (h.1 < y.1) = false := hy
            have hyn : ¬ h.1 < y.1 := by simpa using hyn0
            omega)
      rw [hinner2]
      have hb : ([h.1] : List Nat) ++
          (t.takeWhile (fun x : Nat × String => h.1 < x.1)).map Prod.fst =
          (h.1 :: (t.takeWhile (fun x : Nat × String => h.1 < x.1)).map
            Prod.fst) ++ ([] : List Nat) := by
        simp
      rw [hb, houter2, List.length_map]
      rw [List.cons_append]

/-- C1. -/
theorem C1_heading_tree_shape (all : Bool) (blocks : List Block) :
    (flatL none 0 (skelL (parseDoc all blocks))).1 =
      specNearestParent 0 none [] (headingsOf blocks) := by
  rw [parseDoc_skel, sBuild_eq_buildR]
  rw [flatL_buildR (headingsOf blocks).length (headingsOf blocks) none 0
    (Nat.le_refl _)]
